import Mathlib

/-!
Verification of the multiclass-single-binomial taxonomy crowdsourcing model
(`annotations/classification/multiclass_single_binomial_tax.py`).

The Python source is embedded shallowly over the rationals: every float
computation of the source is mirrored exactly over `ℚ` (the source values are
IEEE floats; all claims under test are about exact values and structure, so the
exact-rational mirror is the faithful reference semantics).  The source
computes class posteriors through logarithms purely for numerical stability:
`log` is injective and turns products into sums, so the embedding keeps the
underlying products and quotients of positive rationals, which is the exact
value the float code approximates.

The `Taxonomy` class itself lives outside the analysed file (it is imported
from `util.taxonomy`); the embedding therefore works with the flat index
structures that `initialize_data_structures` derives from a finalized taxonomy
(node priors, parent/sibling index lists, root-to-node paths), constructed here
directly for concrete taxonomies, plus the key-to-integer-id assignment loops
which are themselves part of the analysed file.
-/

namespace MulticlassSingleBinomial

/-- Flat index structures built by `initialize_data_structures` for a
finalized taxonomy: integer node ids are `0 .. numNodes-1` with the inner
nodes first (ids `0 .. numInner-1`) and the root at id `0`.  All fields mirror
attributes that the Python code stores on the dataset object. -/
structure FlatTax where
  /-- number of inner (non-leaf) nodes; `taxonomy.num_inner_nodes` -/
  numInner : Nat
  /-- Field `node_priors`: per node id, the occurrence prior of the node -/
  nodePriors : List ℚ
  /-- Field `parent_and_siblings_indices`: for each inner node, the list
  `[parent id, child id, child id, ...]` -/
  parentAndSiblings : List (List Nat)
  /-- Field `parent_indices`: for each node id `1 .. numNodes-1` (root excluded),
  the id of its parent -/
  parentIndices : List Nat
  /-- Field `root_to_node_path_list`: for each node id, the id sequence from the
  root to the node inclusive -/
  paths : List (List Nat)
  /-- Field `leaf_integer_ids`: the leaf node ids in ascending order -/
  leafIds : List Nat
  /-- Value `taxonomy.max_depth + 1` of the source. -/
  maxPathLength : Nat

/-- Total number of nodes (`num_nodes = len(taxonomy.nodes)`). -/
def FlatTax.numNodes (ft : FlatTax) : Nat := ft.nodePriors.length

/-- Number of classes (`num_classes = taxonomy.num_leaf_nodes`). -/
def FlatTax.numClasses (ft : FlatTax) : Nat := ft.leafIds.length

/-- A single scatter write `M[r, c] = v` performed by numpy fancy index
assignment; applied in list order, later writes win as in numpy. -/
def applyWrites (init : Nat → Nat → ℚ) : List (Nat × Nat × ℚ) → (Nat → Nat → ℚ)
  | [] => init
  | w :: ws =>
      applyWrites (fun r c => if r = w.1 ∧ c = w.2.1 then w.2.2 else init r c) ws

/-- Key (row, column) of a scatter write. -/
def writeKey (w : Nat × Nat × ℚ) : Nat × Nat := (w.1, w.2.1)

/-- The diagonal (correct) writes of `build_M_and_N`: for every inner node
with sibling group `p :: sibs`, write `M[s, s] = skill_vector[p]` for each
child `s`.  Mirrors `M_correct_rows/M_correct_cols` together with
`skill_vector_correct_read_indices`. -/
def correctWrites (ft : FlatTax) (skill : List ℚ) : List (Nat × Nat × ℚ) :=
  ft.parentAndSiblings.flatMap fun g =>
    match g with
    | [] => []
    | p :: sibs => sibs.map fun s => (s, s, skill.getD p 0)

/-- The off-diagonal (incorrect) writes of `build_M_and_N`: for siblings
`r ≠ c` under parent `p`, write `M[r, c] = (1 - skill_vector[p]) * node_priors[c]`.
Mirrors `M_incorrect_rows/M_incorrect_cols` with
`skill_vector_incorrect_read_indices` and `skill_vector_node_priors_read_indices`. -/
def incorrectWrites (ft : FlatTax) (skill : List ℚ) : List (Nat × Nat × ℚ) :=
  ft.parentAndSiblings.flatMap fun g =>
    match g with
    | [] => []
    | p :: sibs =>
        sibs.flatMap fun r =>
          (sibs.filter fun c => c ≠ r).map fun c =>
            (r, c, (1 - skill.getD p 0) * ft.nodePriors.getD c 0)

/-- All scatter writes building the confusion matrix `M`, in source order:
first all diagonal writes, then all off-diagonal writes. -/
def MWrites (ft : FlatTax) (skill : List ℚ) : List (Nat × Nat × ℚ) :=
  correctWrites ft skill ++ incorrectWrites ft skill

/-- The confusion matrix `M` of `build_M_and_N`: a `num_nodes × num_nodes`
matrix initialized to zero, with the sibling-group scatter writes applied.
`M r c` is the probability that the worker reports sibling `c` when the true
sibling is `r`. -/
def build_M (ft : FlatTax) (skill : List ℚ) : Nat → Nat → ℚ :=
  applyWrites (fun _ _ => 0) (MWrites ft skill)

/-- The blind-guess vector `N` of `build_M_and_N`: entry `0` (root) stays `1`;
entry `i ≥ 1` is `(1 - skill_vector[parent_indices[i-1]]) * node_priors[i]`,
mirroring `N[1:] = node_priors[1:] * (1 - skill_vector[parent_indices])`. -/
def build_N (ft : FlatTax) (skill : List ℚ) : List ℚ :=
  1 :: List.zipWith (fun pidx prior => (1 - skill.getD pidx 0) * prior)
        ft.parentIndices (ft.nodePriors.drop 1)

/-- The concrete taxonomy of the end-to-end scenario: root (id 0, inner) with
two leaf children A (id 1) and B (id 2), uniform class priors 1/2 and 1/2. -/
def ft3 : FlatTax where
  numInner := 1
  nodePriors := [1, 1/2, 1/2]
  parentAndSiblings := [[0, 1, 2]]
  parentIndices := [0, 0]
  paths := [[0], [0, 1], [0, 2]]
  leafIds := [1, 2]
  maxPathLength := 2


/-! ### Trust-conditioned prior-response chain

`predict_true_labels` builds `prob_prior_responses`, a per-worker row of
length `num_nodes`; row `t` holds `p(H_(t-1) | z, w_t)` for every hypothetical
node `z` of worker `t`.  Row `0` is all ones; row `1` is written directly with
`np.where`; every later row is produced by the numerator/denominator
recursion over the previous row. -/

/-- Row `1` of `prob_prior_responses`:
`np.where(node_labels == previous_label, pt, ppnt)` with
`ppnt = (1 - pt) * node_priors[worker_label]` where `worker_label` is the
label reported by the CURRENT worker (worker `1`). -/
def firstRow (numNodes : Nat) (priors : List ℚ) (prevLabel curLabel : Nat)
    (pt : ℚ) : List ℚ :=
  (List.range numNodes).map fun z =>
    if z = prevLabel then pt else (1 - pt) * priors.getD curLabel 0

/-- Rows `2 ..` of `prob_prior_responses`: the numerator/denominator
recursion of the source.  `num[z] = ppnt * ppr` except `pt * ppr` at
`z = previous_label`; `denom[z] = pt * prev[z] + no_match_sum - ppnt * prev[z]`
with `no_match_sum = sum(ppnt * prev)`. -/
def nextRow (numNodes : Nat) (priors : List ℚ) (prevRow : List ℚ)
    (prevLabel curLabel : Nat) (pt : ℚ) : List ℚ :=
  let ppnt := (1 - pt) * priors.getD curLabel 0
  let ppr := prevRow.getD prevLabel 0
  let noMatchSum := (prevRow.map fun x => ppnt * x).sum
  (List.range numNodes).map fun z =>
    (if z = prevLabel then pt * ppr else ppnt * ppr) /
      (pt * prevRow.getD z 0 + noMatchSum - ppnt * prevRow.getD z 0)

/-- Rows of the chain for workers `2 ..`, each produced from the previous row
by `nextRow`; `pairs` lists `(label, prob_trust)` per remaining worker. -/
def pprAux (numNodes : Nat) (priors : List ℚ) : List (Nat × ℚ) → Nat → List ℚ →
    List (List ℚ)
  | [], _, _ => []
  | (lab, pt) :: rest, prevLabel, prevRow =>
      let row := nextRow numNodes priors prevRow prevLabel lab pt
      row :: pprAux numNodes priors rest lab row

/-- The full `prob_prior_responses` tensor of `predict_true_labels`, one row
per worker in arrival order, given each worker integer label and trust. -/
def probPriorResponses (numNodes : Nat) (priors : List ℚ) (labels : List Nat)
    (trusts : List ℚ) : List (List ℚ) :=
  match labels.zip trusts with
  | [] => []
  | [(_, _)] => [List.replicate numNodes (1 : ℚ)]
  | (l0, _) :: (l1, pt1) :: rest2 =>
      List.replicate numNodes (1 : ℚ) :: firstRow numNodes priors l0 l1 pt1 ::
        pprAux numNodes priors rest2 l1 (firstRow numNodes priors l0 l1 pt1)

/-- The per-node probability named by the specification sentence for the
chain: `pt` when the hypothetical node `z` equals the previous worker label,
and `(1 - pt)` times the class prior OF `z` otherwise.  This follows the
claim wording, to be compared against the source. -/
def priorRespProbClaim (priors : List ℚ) (prevLabel : Nat) (pt : ℚ)
    (z : Nat) : ℚ :=
  if z = prevLabel then pt else (1 - pt) * priors.getD z 0

/-! ### Annotation probability tensor

`initialize_data_structures` precomputes, for every class `y` and every
non-root node `z`, which cells of `M` and `N` are copied into the
`[class, node, path position]` tensor of ones; `predict_true_labels` applies
those copies and takes the product along the path axis. -/

/-- A root-to-node path padded to length `len` with the sentinel `pad`
(`-1` for class paths, `-2` for annotation paths in the source). -/
def padTo (pad : Int) (len : Nat) (p : List Nat) : List Int :=
  p.map Int.ofNat ++ List.replicate (len - p.length) pad

/-- Row `class_node_index_list_padded_neg_1[y]`: the padded root path of the
`y`-th leaf. -/
def classPathOf (ft : FlatTax) (y : Nat) : List Int :=
  padTo (-1) ft.maxPathLength (ft.paths.getD (ft.leafIds.getD y 0) [])

/-- Row `anno_node_index_list_padded_neg_2[z]`: the padded root path of node `z`. -/
def annoPathOf (ft : FlatTax) (z : Nat) : List Int :=
  padTo (-2) ft.maxPathLength (ft.paths.getD z [])

/-- Depth of the annotation node `z`: `np.sum(path_to_z >= 0)`. -/
def zDepth (ft : FlatTax) (z : Nat) : Nat :=
  ((annoPathOf ft z).filter fun x => 0 ≤ x).length

/-- The scatter table copied from `M`
(`annotation_probs_insert_from_M` zipped with `annotation_probs_M_indices`):
for each `(y, z)` and each path position `i` below the level of `z` where the
two paths agree, the tensor cell `(y, z, i)` receives `M[y child, z child]`. -/
def scatterFromM (ft : FlatTax) : List ((Nat × Nat × Nat) × (Nat × Nat)) :=
  (List.range ft.numClasses).flatMap fun y =>
    (List.range' 1 (ft.numNodes - 1)).flatMap fun z =>
      let py := classPathOf ft y
      let pz := annoPathOf ft z
      (List.range (zDepth ft z - 1)).filterMap fun i =>
        if py.getD i (-1) = pz.getD i (-2) then
          some ((y, z, i), ((py.getD (i + 1) (-1)).toNat,
                            (pz.getD (i + 1) (-2)).toNat))
        else none

/-- The scatter table copied from `N`
(`annotation_probs_insert_from_N` zipped with `annotation_probs_N_indices`):
for each `(y, z)` and each position `i` below the level of `z` where the paths
have diverged while the path of `z` continues, the tensor cell `(y, z, i)`
receives `N[z child]`. -/
def scatterFromN (ft : FlatTax) : List ((Nat × Nat × Nat) × Nat) :=
  (List.range ft.numClasses).flatMap fun y =>
    (List.range' 1 (ft.numNodes - 1)).flatMap fun z =>
      let py := classPathOf ft y
      let pz := annoPathOf ft z
      (List.range (zDepth ft z - 1)).filterMap fun i =>
        if py.getD i (-1) = pz.getD i (-2) then none
        else if 0 ≤ pz.getD i (-2) then
          some ((y, z, i), (pz.getD (i + 1) (-2)).toNat)
        else none

/-- Triple-keyed scatter writes into the tensor of ones, later writes win. -/
def applyWrites3 (init : Nat × Nat × Nat → ℚ) :
    List ((Nat × Nat × Nat) × ℚ) → (Nat × Nat × Nat → ℚ)
  | [] => init
  | w :: ws => applyWrites3 (fun k => if k = w.1 then w.2 else init k) ws

/-- The per-worker `[num_classes, num_nodes, max_path_length - 1]` tensor
after both scatter copies: value at `(y, z, i)`. -/
def annoTensor (ft : FlatTax) (M : Nat → Nat → ℚ) (N : List ℚ) :
    Nat × Nat × Nat → ℚ :=
  applyWrites3 (fun _ => 1)
    ((scatterFromM ft).map (fun w => (w.1, M w.2.1 w.2.2)) ++
     (scatterFromN ft).map (fun w => (w.1, N.getD w.2 0)))

/-- Tensor `annotation_probs` after `np.prod(..., axis=3)`: the probability that the
worker reports node `z` when the true class is `y`. -/
def annoProb (ft : FlatTax) (M : Nat → Nat → ℚ) (N : List ℚ)
    (y z : Nat) : ℚ :=
  ((List.range (ft.maxPathLength - 1)).map fun i =>
    annoTensor ft M N (y, z, i)).prod

/-- First index of the maximum entry (`np.argmax`). -/
def argmaxList (l : List ℚ) : Nat :=
  (l.enum.foldl (fun acc p => if acc.2 < p.2 then p else acc)
    (0, l.getD 0 0)).1

/-- One usable (non computer-vision) input row of `predict_true_labels`:
the worker skill vector, integer node id of the reported label, and the
worker trust probability, in arrival order. -/
structure AnnoInput where
  skill : List ℚ
  label : Nat
  probTrust : ℚ
deriving Inhabited

/-- The exact-rational value of the per-class log-likelihood computation in
`predict_true_labels`, with the logarithms removed (log of a product of
positive terms is the sum of the logs, so the source class scores are the
logs of these values): class prior times, per worker, the reported-node
probability weighted by the prior-response chain, normalized by the sum of
that weight over all hypothetical nodes. -/
def classScores (ft : FlatTax) (annos : List AnnoInput) : List ℚ :=
  let labels := annos.map (·.label)
  let trusts := annos.map (·.probTrust)
  let ppr := probPriorResponses ft.numNodes ft.nodePriors labels trusts
  (List.range ft.numClasses).map fun y =>
    ft.nodePriors.getD (ft.leafIds.getD y 0) 0 *
      ((List.range annos.length).map fun w =>
        let a := annos.getD w default
        let A := annoProb ft (build_M ft a.skill) (build_N ft a.skill) y
        let row := ppr.getD w []
        (A a.label * row.getD a.label 0) /
          ((List.range ft.numNodes).map fun z => A z * row.getD z 0).sum).prod

/-- Function `predict_true_labels`: returns the integer id of the selected label and
the risk `1 - softmax(class log likelihoods)[argmax]`; the softmax with the
max-subtraction trick computes `1 / sum_y score_y / score_max` exactly. -/
def predict_true_labels (ft : FlatTax) (annos : List AnnoInput) : Nat × ℚ :=
  let scores := classScores ft annos
  let amax := argmaxList scores
  let m := scores.getD amax 0
  let denom := (scores.map fun s => s / m).sum
  (ft.leafIds.getD amax 0, 1 - 1 / denom)

/-! ### Majority vote (`crowdsource_simple`)

The fallback of `crowdsource_simple` calls `random.choice`, which reads the
hidden global random number generator.  The embedding makes that hidden state
an explicit `rng` argument (`random.choice(seq)` picks an index from the
generator state), so that dependence on it is visible in theorems. -/

/-- Distinct elements of a list in order of first occurrence (the iteration
order of a Python `Counter` built from the list). -/
def firstSeen (l : List Nat) : List Nat :=
  l.foldl (fun acc x => if x ∈ acc then acc else acc ++ [x]) []

/-- Value `Counter(labels).most_common(1)[0][0]`: the first-seen element with the
strictly largest count, `none` on an empty list. -/
def mostCommon (l : List Nat) : Option Nat :=
  (firstSeen l).foldl
    (fun best x =>
      match best with
      | none => some x
      | some b => if l.count b < l.count x then some x else best)
    none

/-- Function `crowdsource_simple` restricted to its label computation: filter the
annotations to leaf labels, majority-vote if any remain, otherwise pick a
leaf key driven by the random number generator state `rng`. -/
def crowdsource_simple (leafNodeKeys leafKeySet annos : List Nat)
    (rng : Nat) : Nat :=
  let labels := annos.filter fun a => a ∈ leafKeySet
  match mostCommon labels with
  | some y => y
  | none => leafNodeKeys.getD (rng % leafNodeKeys.length) 0

/-! ### Worker skill estimation (`estimate_parameters`) -/

/-- One image of a given worker, as consumed by the skill-count loop of
`CrowdWorkerMulticlassSingleBinomial.estimate_parameters`: the number of
annotations on the image (`len(image.z)`), the integer id of the current best
label (`image.y.label`) and the integer id of the label this worker reported
(`image.z[self.id].label`). -/
structure WImage where
  numAnnos : Nat
  yId : Nat
  zId : Nat
deriving Inhabited, DecidableEq

/-- Increment entry `i` of a count vector (numpy `v[i] += 1`; out-of-range
indices never occur in the source because all bumped ids are inner ids). -/
def bump (v : List ℚ) (i : Nat) : List ℚ := v.set i (v.getD i 0 + 1)

/-- The inner nodes whose correct-count is bumped for one image: walking the
two root paths in lockstep, the parent `y[ci-1]` is emitted whenever the
children `y[ci]` and `z[ci]` coincide; the walk stops when either path is
exhausted (the source breaks when the `z` path ends). -/
def matchedParents : List Nat → List Nat → List Nat
  | yp :: yc :: yr, _ :: zc :: zr =>
      (if yc = zc then [yp] else []) ++ matchedParents (yc :: yr) (zc :: zr)
  | _, _ => []

/-- The pooled numerator/denominator count vectors of `estimate_parameters`:
images with at most one annotation are skipped; for the rest the denominator
is bumped at every node of the best-label path except the last, and the
numerator at every matched parent. -/
def skillCounts (paths : List (List Nat)) (nInner : Nat)
    (imgs : List WImage) : List ℚ × List ℚ :=
  imgs.foldl
    (fun acc im =>
      if im.numAnnos ≤ 1 then acc
      else
        let yp := paths.getD im.yId []
        let zp := paths.getD im.zId []
        ((matchedParents yp zp).foldl bump acc.1,
         yp.dropLast.foldl bump acc.2))
    (List.replicate nInner 0, List.replicate nInner 0)

/-- Function `np.clip(x, lo, hi)`. -/
def clipQ (lo hi x : ℚ) : ℚ := min hi (max lo x)

/-- The final Beta-smoothed skill vector update of `estimate_parameters`:
`clip((beta * pooled + num) / clip(beta + denom, 1e-8, inf), 1e-8, 0.99999)`
applied elementwise. -/
def applyBetaUpdate (beta : ℚ) (pooled nums denoms : List ℚ) : List ℚ :=
  List.zipWith
    (fun p nd =>
      clipQ (1 / 100000000) (99999 / 100000)
        ((beta * p + nd.1) / max (1 / 100000000) (beta + nd.2)))
    pooled (nums.zip denoms)

/-- The skill-vector part of
`CrowdWorkerMulticlassSingleBinomial.estimate_parameters`. -/
def estimate_parameters_skill (beta : ℚ) (pooled : List ℚ)
    (paths : List (List Nat)) (nInner : Nat) (imgs : List WImage) : List ℚ :=
  let counts := skillCounts paths nInner imgs
  applyBetaUpdate beta pooled counts.1 counts.2

/-- Vector `default_skill_vector` built by `initialize_data_structures`:
`np.ones(num_inner_nodes) * prob_correct`; `initialize_parameters` copies it
onto every worker. -/
def default_skill_vector (nInner : Nat) (probCorrect : ℚ) : List ℚ :=
  List.replicate nInner probCorrect

/-! ### Image state and the finished flag -/

/-- The mutable per-image state touched by the image operations: the current
label estimate (an integer node id), the risk, and the finished flag. -/
structure ImgState where
  y : Option Nat
  risk : ℚ
  finished : Bool
deriving DecidableEq

/-- Method `CrowdImageMulticlassSingleBinomial.check_finished`: returns `True`
immediately when already finished; otherwise compares the risk with the
threshold and stores the verdict only when `set_finished` holds.  Returns the
boolean result together with the updated state. -/
def check_finished (minRisk : ℚ) (s : ImgState) (setFinished : Bool) :
    Bool × ImgState :=
  if s.finished then (true, s)
  else
    let fin := decide (s.risk ≤ minRisk)
    (fin, if setFinished then { s with finished := fin } else s)

/-- Method `crowdsource_simple` as a state transition on the image: skips when
`avoid_if_finished` and finished, otherwise overwrites the label estimate. -/
def crowdsourceOp (leafNodeKeys leafKeySet annos : List Nat) (rng : Nat)
    (avoidIfFinished : Bool) (s : ImgState) : ImgState :=
  if avoidIfFinished ∧ s.finished then s
  else { s with y := some (crowdsource_simple leafNodeKeys leafKeySet annos rng) }

/-- Method `predict_true_labels` as a state transition on the image: with
`avoid_if_finished` set and the image finished it returns early (before or
after caching the chain values, depending on `model_worker_trust`, neither of
which touches this state); otherwise it overwrites label and risk. -/
def predictOp (ft : FlatTax) (annos : List AnnoInput) (modelTrust : Bool)
    (avoidIfFinished : Bool) (s : ImgState) : ImgState :=
  if avoidIfFinished ∧ s.finished ∧ ¬modelTrust then s
  else if avoidIfFinished ∧ s.finished then s
  else
    let yr := predict_true_labels ft annos
    { s with y := some yr.1, risk := yr.2 }

/-- Method `CrowdImageMulticlassSingleBinomial.estimate_parameters` is a no-op on
the image (the model has no image difficulty parameters). -/
def imageEstimateParametersOp (s : ImgState) : ImgState := s

/-! ### Worker serialization -/

/-- The per-worker state relevant to serialization. -/
structure WorkerState where
  skillVector : Option (List ℚ)
  probTrust : ℚ
deriving DecidableEq

/-- Method `CrowdWorkerMulticlassSingleBinomial.encode`: the produced data dict has
a `skill_vector` entry exactly when the vector is not `None`
(`tolist()` converts the float32 entries to Python floats exactly, since
every float32 is exactly representable as a float64; over `ℚ` it is the
identity). -/
def workerEncode (w : WorkerState) : Option (List ℚ) := w.skillVector

/-- Method `CrowdWorkerMulticlassSingleBinomial.parse`: sets the skill vector from
the data when the `skill_vector` entry is present (`np.array` of the stored
list, exact over `ℚ`). -/
def workerParse (w : WorkerState) (data : Option (List ℚ)) : WorkerState :=
  match data with
  | some v => { w with skillVector := some v }
  | none => w

/-! ### Node key to integer id assignment (`initialize_data_structures`) -/

/-- Python dict assignment `d[k] = v`: overwrite the existing entry when the
key is present, append otherwise. -/
def dictInsert {α : Type} [DecidableEq α] (d : List (α × Nat)) (k : α)
    (v : Nat) : List (α × Nat) :=
  if d.any (fun p => p.1 = k) then
    d.map fun p => if p.1 = k then (k, v) else p
  else d ++ [(k, v)]

/-- Python dict lookup `d[k]`, `none` when the key is absent. -/
def dictLookup {α : Type} [DecidableEq α] (d : List (α × Nat)) (k : α) :
    Option Nat :=
  (d.find? fun p => p.1 = k).map (·.2)

/-- The `orig_node_key_to_integer_id` dict: enumerate the inner nodes first,
assigning ids `0, 1, ...`, then the leaf nodes with the offset
`num_inner_nodes` (the source computes the offset as the final inner loop
index plus one, which equals the number of inner nodes; the taxonomy always
has at least the root as an inner node). -/
def buildKeyToId {α : Type} [DecidableEq α] (innerKeys leafKeys : List α) :
    List (α × Nat) :=
  let d1 := innerKeys.enum.foldl (fun d p => dictInsert d p.2 p.1) []
  leafKeys.enum.foldl (fun d p => dictInsert d p.2 (p.1 + innerKeys.length)) d1

/-- Contribution of one image to the numerator (correct) count list: empty
when the image is skipped (at most one annotation), otherwise the matched
parents along the two paths.  `skillCounts` folds exactly these bumps. -/
def imgNumContrib (paths : List (List Nat)) (im : WImage) : List Nat :=
  if im.numAnnos ≤ 1 then []
  else matchedParents (paths.getD im.yId []) (paths.getD im.zId [])

/-- Contribution of one image to the denominator (total) count list: empty
when the image is skipped, otherwise the best-label path without its last
node. -/
def imgDenomContrib (paths : List (List Nat)) (im : WImage) : List Nat :=
  if im.numAnnos ≤ 1 then [] else (paths.getD im.yId []).dropLast

/-- The tree property of root paths: if two root paths agree at a position,
they agree on the whole prefix up to and including that position.  Root
paths of a tree always satisfy this, because the path to a node is unique. -/
def PrefixAgree (yp zp : List Nat) : Prop :=
  ∀ ci, ci < yp.length → ci < zp.length → yp.getD ci 0 = zp.getD ci 0 →
    yp.take (ci + 1) = zp.take (ci + 1)

/-- The condition of the C4 claim for `count_correct[n]` on one image: the
worker reported path agrees with the best-label path up to and including the
child of node `n`. -/
def agreesThroughChild (paths : List (List Nat)) (im : WImage) (n : Nat) :
    Bool :=
  let yp := paths.getD im.yId []
  let zp := paths.getD im.zId []
  (List.range yp.length).any fun ci =>
    decide (1 ≤ ci ∧ ci < zp.length ∧ yp.getD (ci - 1) 0 = n ∧
      yp.take (ci + 1) = zp.take (ci + 1))

/-- Amended C4 count for `count_total[n]`: one increment for every image
with at least two annotations whose best-label root path passes through `n`. -/
def countTotalAmended (paths : List (List Nat)) (imgs : List WImage)
    (n : Nat) : Nat :=
  (imgs.filter fun im =>
    decide (2 ≤ im.numAnnos) &&
      decide (n ∈ (paths.getD im.yId []).dropLast)).length

/-- Amended C4 count for `count_correct[n]`: one increment for every image
with at least two annotations where the worker path agrees with the
best-label path up to and including the child of `n`. -/
def countCorrectAmended (paths : List (List Nat)) (imgs : List WImage)
    (n : Nat) : Nat :=
  (imgs.filter fun im =>
    decide (2 ≤ im.numAnnos) && agreesThroughChild paths im n).length

/-- The count that the C4 claim sentence prescribes for `count_total[n]`:
one increment for EVERY item whose current best-label root path passes
through `n` (no condition on the number of annotations). -/
def countTotalClaim (paths : List (List Nat)) (imgs : List WImage)
    (n : Nat) : Nat :=
  (imgs.filter fun im => n ∈ (paths.getD im.yId []).dropLast).length

/-! ## Theorems -/

/-- C6: the blind-guess vector returned by `build_M_and_N` has `N[root] = 1`
and, for every non-root node `i`,
`N[i] = (1 - skill[parent(i)]) * node_priors[i]`, the parent of node `i`
being `parent_indices[i-1]`. -/
theorem C6_blind_guess_vector (ft : FlatTax) (skill : List ℚ) (i : Nat)
    (h1 : 1 ≤ i) (h2 : i < ft.numNodes)
    (hp : ft.parentIndices.length + 1 = ft.numNodes) :
    (build_N ft skill).getD 0 0 = 1 ∧
    (build_N ft skill).getD i 0 =
      (1 - skill.getD (ft.parentIndices.getD (i - 1) 0) 0) *
        ft.nodePriors.getD i 0 := by
  constructor
  · rfl
  · obtain ⟨j, rfl⟩ : ∃ j, i = j + 1 := ⟨i - 1, (Nat.succ_pred_eq_of_pos h1).symm⟩
    unfold FlatTax.numNodes at h2 hp
    have hjp : j < ft.parentIndices.length := by omega
    have hjz : j < (List.zipWith
        (fun pidx prior => (1 - skill.getD pidx 0) * prior)
        ft.parentIndices (ft.nodePriors.drop 1)).length := by
      simp only [List.length_zipWith, List.length_drop, lt_min_iff]
      omega
    rw [build_N, List.getD_cons_succ, List.getD_eq_getElem _ _ hjz,
      List.getElem_zipWith, List.getElem_drop]
    simp only [Nat.add_sub_cancel]
    rw [List.getD_eq_getElem ft.parentIndices 0 hjp,
      List.getD_eq_getElem ft.nodePriors 0 h2]
    congr 1
    exact getElem_congr (by omega)

/-- C6 witness: node 2 of the concrete two-leaf taxonomy with root skill
9/10 gets blind-guess probability (1 - 9/10) * 1/2 = 1/20. -/
theorem C6_blind_guess_vector_witness :
    (1 ≤ 2 ∧ 2 < ft3.numNodes ∧ ft3.parentIndices.length + 1 = ft3.numNodes) ∧
    ((build_N ft3 [9/10]).getD 0 0 = 1 ∧
     (build_N ft3 [9/10]).getD 2 0 =
       (1 - (9/10 : ℚ)) * ft3.nodePriors.getD 2 0) := by
  refine ⟨⟨by decide, by decide, by decide⟩, ?_⟩
  have h := C6_blind_guess_vector ft3 [9/10] 2 (by decide) (by decide)
    (by decide)
  simpa [ft3] using h

/-- C8: encoding a worker with a non-None skill vector and parsing the
encoded data back reproduces exactly the same skill vector (over the
embedding field ℚ; `tolist` followed by `np.array` is exact on floats as
well, since float32 values embed exactly into float64). -/
theorem C8_skill_vector_roundtrip (w target : WorkerState) (v : List ℚ)
    (h : w.skillVector = some v) :
    (workerParse target (workerEncode w)).skillVector = some v := by
  simp [workerParse, workerEncode, h]

/-- C8 witness: a concrete two-entry skill vector survives the round trip. -/
theorem C8_skill_vector_roundtrip_witness :
    (WorkerState.mk (some [4/5, 7/10]) (4/5)).skillVector = some [4/5, 7/10] ∧
    (workerParse (WorkerState.mk none (1/2))
      (workerEncode (WorkerState.mk (some [4/5, 7/10]) (4/5)))).skillVector =
      some [4/5, 7/10] :=
  ⟨rfl, C8_skill_vector_roundtrip _ _ _ rfl⟩

/-- C10: the finished flag is monotone.  Once `finished` is true,
`check_finished` returns `True` immediately with the state unchanged (so the
risk is not re-examined), and no image operation — `check_finished` with
either value of `set_finished`, the majority-vote label operation, the
posterior label prediction, or the (no-op) image parameter estimation — ever
resets `finished` to false. -/
theorem C10_finished_monotone (s : ImgState) (hf : s.finished = true) :
    (∀ minRisk b, check_finished minRisk s b = (true, s)) ∧
    (∀ minRisk b, ((check_finished minRisk s b).2).finished = true) ∧
    (∀ lk ls annos rng avoid,
      (crowdsourceOp lk ls annos rng avoid s).finished = true) ∧
    (∀ ft annos mt avoid, (predictOp ft annos mt avoid s).finished = true) ∧
    (imageEstimateParametersOp s).finished = true := by
  refine ⟨fun minRisk b => by simp [check_finished, hf],
    fun minRisk b => by simp [check_finished, hf],
    fun lk ls annos rng avoid => ?_,
    fun ft annos mt avoid => ?_, hf⟩
  · unfold crowdsourceOp
    split
    · exact hf
    · simpa using hf
  · unfold predictOp
    split
    · exact hf
    · split
      · exact hf
      · simpa using hf

/-- C10 witness: a finished state with nonzero risk stays finished and
`check_finished` returns true without looking at the risk. -/
theorem C10_finished_monotone_witness :
    (ImgState.mk none (1/2) true).finished = true ∧
    check_finished (1/100) (ImgState.mk none (1/2) true) true =
      (true, ImgState.mk none (1/2) true) ∧
    (crowdsourceOp [1] [1] [] 0 false (ImgState.mk none (1/2) true)).finished =
      true :=
  ⟨rfl, (C10_finished_monotone _ rfl).1 (1/100) true,
    (C10_finished_monotone _ rfl).2.2.1 [1] [1] [] 0 false⟩

/-- C1 counterexample: in the end-to-end scenario (root with leaves A = 1 and
B = 2, uniform priors, one worker reporting A with root skill 9/10) the code
selects A but with risk exactly 1/19, not the claimed 1/10, because the
off-diagonal confusion entry is (1 - 0.9) * prior(B) = 1/20, not 1/10, and
the root annotation cell of the likelihood tensor contributes 1 to each
per-worker normalizer.  The worker trust value 4/5 is irrelevant with a
single worker. -/
theorem C1_counterexample :
    predict_true_labels ft3 [⟨[9/10], 1, 4/5⟩] = (1, 1/19) ∧
    ((1 : ℚ)/19 ≠ 1/10) ∧ (1 - (1 : ℚ)/19 ≠ 9/10) := by
  refine ⟨?_, by norm_num, by norm_num⟩
  norm_num [predict_true_labels, classScores, probPriorResponses, firstRow,
    pprAux, annoProb, annoTensor, applyWrites3, scatterFromM, scatterFromN,
    classPathOf, annoPathOf, zDepth, padTo, build_M, build_N, MWrites,
    correctWrites, incorrectWrites, applyWrites, argmaxList, ft3,
    List.range_succ, List.range', List.replicate_succ, FlatTax.numNodes,
    FlatTax.numClasses, List.enum, List.enumFrom, Int.toNat]

/-- C1 amended: in the end-to-end scenario, `predict_true_labels` selects
label A (integer id 1) with posterior probability exactly 18/19 and risk
exactly 1/19. -/
theorem C1_amended :
    (predict_true_labels ft3 [⟨[9/10], 1, 4/5⟩]).1 = 1 ∧
    (predict_true_labels ft3 [⟨[9/10], 1, 4/5⟩]).2 = 1/19 ∧
    1 - (predict_true_labels ft3 [⟨[9/10], 1, 4/5⟩]).2 = 18/19 := by
  have h : predict_true_labels ft3 [⟨[9/10], 1, 4/5⟩] = (1, 1/19) := by
    norm_num [predict_true_labels, classScores, probPriorResponses, firstRow,
      pprAux, annoProb, annoTensor, applyWrites3, scatterFromM, scatterFromN,
      classPathOf, annoPathOf, zDepth, padTo, build_M, build_N, MWrites,
      correctWrites, incorrectWrites, applyWrites, argmaxList, ft3,
      List.range_succ, List.range', List.replicate_succ, FlatTax.numNodes,
      FlatTax.numClasses, List.enum, List.enumFrom, Int.toNat]
  rw [h]
  norm_num

/-- C2 counterexample: for the two-sibling group under the root with uniform
priors and root skill 9/10, row A of the confusion matrix M restricted to
the sibling group sums to 9/10 + (1/10)(1/2) = 19/20, not 1. -/
theorem C2_counterexample :
    ([1, 2].map fun c => build_M ft3 [9/10] 1 c).sum = 19/20 ∧
    (19/20 : ℚ) ≠ 1 := by
  constructor
  · norm_num [build_M, MWrites, correctWrites, incorrectWrites, applyWrites,
      ft3]
  · norm_num

/-- C3 counterexample: with node priors [1, 2/3, 1/3], worker 0 reporting
node 1 and worker 1 reporting node 2 with trust 4/5, the chain entry of
worker 1 at hypothetical node z = 0 is (1 - 4/5) * prior(reported label 2)
= 1/15, whereas the claim prescribes (1 - 4/5) * prior(z = 0) = 1/5: the
source multiplies by the prior of the reporting worker own label, not by the
prior of the hypothetical node z. -/
theorem C3_counterexample :
    ((probPriorResponses 3 [1, 2/3, 1/3] [1, 2] [4/5, 4/5]).getD 1 []).getD
      0 0 = 1/15 ∧
    priorRespProbClaim [1, 2/3, 1/3] 1 (4/5) 0 = 1/5 ∧
    (1/15 : ℚ) ≠ 1/5 := by
  refine ⟨?_, by norm_num [priorRespProbClaim], by norm_num⟩
  norm_num [probPriorResponses, firstRow, pprAux, List.range_succ,
    List.replicate_succ]

/-- C4 counterexample: a worker with a single image that carries only the
worker own annotation (`len(image.z) = 1`): the best-label path [0, 1]
passes through inner node 0, so the claim demands `count_total[0] = 1`, but
the source skips every image with at most one annotation and leaves the
count at 0. -/
theorem C4_counterexample :
    (skillCounts ft3.paths 1 [⟨1, 1, 1⟩]).2.getD 0 0 = 0 ∧
    countTotalClaim ft3.paths [⟨1, 1, 1⟩] 0 = 1 ∧
    ((0 : ℚ) ≠ (1 : ℚ)) := by
  refine ⟨?_, by decide, by norm_num⟩
  norm_num [skillCounts, ft3, List.replicate_succ]

/-- C5 counterexample: with dataset hyperparameters `prob_correct = 8/10`
(the default skill value) and `prob_correct_prior = 7/10` (the pooled prior),
a worker with zero history receives the clipped pooled vector [7/10] from
`estimate_parameters`, not the dataset default skill vector [8/10] that
`initialize_parameters` assigns. -/
theorem C5_counterexample :
    estimate_parameters_skill 10 [7/10] ft3.paths 1 [] = [7/10] ∧
    default_skill_vector 1 (8/10) = [8/10] ∧
    ([7/10] : List ℚ) ≠ [8/10] := by
  refine ⟨?_, by norm_num [default_skill_vector, List.replicate_succ], ?_⟩
  · norm_num [estimate_parameters_skill, skillCounts, applyBetaUpdate,
      clipQ, List.replicate_succ]
  · simp only [ne_eq, List.cons.injEq, and_true]
    norm_num

/-- C9 counterexample: `crowdsource_simple` with zero usable annotations
consults the random number generator (modelled as the explicit `rng`
argument standing for the hidden global `random` state), so two runs on the
identical annotation input can return different labels. -/
theorem C9_counterexample :
    crowdsource_simple [1, 2] [1, 2] [] 0 = 1 ∧
    crowdsource_simple [1, 2] [1, 2] [] 1 = 2 ∧ (1 : Nat) ≠ 2 := by
  refine ⟨by decide, by decide, by decide⟩

/-! ### Helper lemmas -/

lemma foldl_firstSeen_ne_nil (l acc : List Nat) (h : acc ≠ []) :
    l.foldl (fun acc x => if x ∈ acc then acc else acc ++ [x]) acc ≠ [] := by
  induction l generalizing acc with
  | nil => exact h
  | cons x l ih =>
      simp only [List.foldl_cons]
      by_cases hx : x ∈ acc
      · rw [if_pos hx]; exact ih acc h
      · rw [if_neg hx]
        exact ih (acc ++ [x]) (by simp)

lemma firstSeen_ne_nil (l : List Nat) (h : l ≠ []) : firstSeen l ≠ [] := by
  cases l with
  | nil => exact absurd rfl h
  | cons x l =>
      unfold firstSeen
      simp only [List.foldl_cons, List.not_mem_nil, if_neg, List.nil_append]
      exact foldl_firstSeen_ne_nil l [x] (by simp)

lemma foldl_mostCommon_isSome (l : List Nat) (step : Option Nat → Nat → Option Nat)
    (hstep : ∀ b x, ∃ c, step (some b) x = some c) :
    ∀ b, ∃ c, l.foldl step (some b) = some c := by
  induction l with
  | nil => exact fun b => ⟨b, rfl⟩
  | cons x l ih =>
      intro b
      obtain ⟨c, hc⟩ := hstep b x
      simpa [List.foldl_cons, hc] using ih c

lemma mostCommon_isSome (l : List Nat) (h : l ≠ []) :
    ∃ c, mostCommon l = some c := by
  unfold mostCommon
  obtain ⟨y, ys, hys⟩ := List.exists_cons_of_ne_nil (firstSeen_ne_nil l h)
  rw [hys, List.foldl_cons]
  refine foldl_mostCommon_isSome ys _ ?_ y
  intro b x
  by_cases hbx : l.count b < l.count x
  · exact ⟨x, by simp [hbx]⟩
  · exact ⟨b, by simp [hbx]⟩

/-- C9 amended: every core operation is deterministic given its inputs
except the zero-usable-annotation fallback of `crowdsource_simple`: when at
least one annotation is a leaf label, the result of `crowdsource_simple`
does not depend on the hidden random generator state, so two runs on
identical inputs agree (the posterior prediction `predict_true_labels` is a
pure function of its inputs by construction and never consults the
generator). -/
theorem C9_amended (leafNodeKeys leafKeySet annos : List Nat) (r1 r2 : Nat)
    (h : annos.filter (fun a => a ∈ leafKeySet) ≠ []) :
    crowdsource_simple leafNodeKeys leafKeySet annos r1 =
      crowdsource_simple leafNodeKeys leafKeySet annos r2 := by
  obtain ⟨c, hc⟩ := mostCommon_isSome _ h
  simp only [crowdsource_simple, hc]

/-- C9 amended witness: with one usable leaf annotation, generator states 0
and 5 give the same label. -/
theorem C9_amended_witness :
    ([1].filter (fun a => a ∈ [1, 2]) ≠ []) ∧
    crowdsource_simple [1, 2] [1, 2] [1] 0 =
      crowdsource_simple [1, 2] [1, 2] [1] 5 :=
  ⟨by decide, C9_amended [1, 2] [1, 2] [1] 0 5 (by decide)⟩

lemma skillCounts_all_skipped (paths : List (List Nat)) (nInner : Nat)
    (imgs : List WImage) (hz : ∀ im ∈ imgs, im.numAnnos ≤ 1) :
    skillCounts paths nInner imgs =
      (List.replicate nInner 0, List.replicate nInner 0) := by
  unfold skillCounts
  generalize (List.replicate nInner (0 : ℚ), List.replicate nInner (0 : ℚ)) = acc
  induction imgs generalizing acc with
  | nil => rfl
  | cons im imgs ih =>
      rw [List.foldl_cons, if_pos (hz im (by simp))]
      exact ih (fun i hi => hz i (by simp [hi])) acc

lemma applyBetaUpdate_zero (beta : ℚ) (pooled : List ℚ)
    (hb : (1 : ℚ)/100000000 ≤ beta) :
    applyBetaUpdate beta pooled (List.replicate pooled.length 0)
        (List.replicate pooled.length 0) =
      pooled.map (clipQ (1/100000000) (99999/100000)) := by
  have hbne : beta ≠ 0 := by
    intro h0
    rw [h0] at hb
    norm_num at hb
  induction pooled with
  | nil => rfl
  | cons p pooled ih =>
      simp only [List.length_cons, List.replicate_succ, applyBetaUpdate,
        List.zip_cons_cons, List.zipWith_cons_cons, List.map_cons]
      refine congrArg₂ _ ?_ ih
      have hmax : max ((1 : ℚ)/100000000) (beta + 0) = beta := by
        rw [add_zero]; exact max_eq_right hb
      rw [hmax, add_zero, mul_div_cancel_left₀ p hbne]

/-- C5 amended: after `estimate_parameters` runs on a worker none of whose
images contributes counts (every image has at most one annotation, in
particular a worker with zero history), the skill vector equals the clipped
dataset-wide POOLED prob-correct vector (entries `prob_correct_prior`), not
the default skill vector that `initialize_parameters` assigns (entries
`prob_correct`); the two coincide only when the two dataset hyperparameters
are equal. -/
theorem C5_amended (beta : ℚ) (pooled : List ℚ) (paths : List (List Nat))
    (nInner : Nat) (imgs : List WImage)
    (hb : (1 : ℚ)/100000000 ≤ beta) (hlen : pooled.length = nInner)
    (hz : ∀ im ∈ imgs, im.numAnnos ≤ 1) :
    estimate_parameters_skill beta pooled paths nInner imgs =
      pooled.map (clipQ (1/100000000) (99999/100000)) := by
  unfold estimate_parameters_skill
  rw [skillCounts_all_skipped paths nInner imgs hz, ← hlen]
  exact applyBetaUpdate_zero beta pooled hb

/-- C5 amended witness: beta = 10, pooled vector [7/10], no images. -/
theorem C5_amended_witness :
    ((1 : ℚ)/100000000 ≤ 10 ∧ ([(7 : ℚ)/10]).length = 1) ∧
    estimate_parameters_skill 10 [7/10] ft3.paths 1 [] =
      [(7 : ℚ)/10].map (clipQ (1/100000000) (99999/100000)) :=
  ⟨⟨by norm_num, rfl⟩,
    C5_amended 10 [7/10] ft3.paths 1 [] (by norm_num) rfl (by simp)⟩

lemma applyWrites_of_not_mem (ws : List (Nat × Nat × ℚ))
    (init : Nat → Nat → ℚ) (r c : Nat)
    (h : (r, c) ∉ ws.map writeKey) :
    applyWrites init ws r c = init r c := by
  induction ws generalizing init with
  | nil => rfl
  | cons w ws ih =>
      simp only [List.map_cons, List.mem_cons, not_or] at h
      rw [applyWrites, ih _ h.2]
      have hne : ¬(r = w.1 ∧ c = w.2.1) := by
        rintro ⟨rfl, rfl⟩
        exact h.1 rfl
      rw [if_neg hne]

lemma applyWrites_of_mem (ws : List (Nat × Nat × ℚ))
    (init : Nat → Nat → ℚ) (r c : Nat) (v : ℚ)
    (hnd : (ws.map writeKey).Nodup) (hm : (r, c, v) ∈ ws) :
    applyWrites init ws r c = v := by
  induction ws generalizing init with
  | nil => exact absurd hm (List.not_mem_nil _)
  | cons w ws ih =>
      simp only [List.map_cons, List.nodup_cons] at hnd
      rcases List.mem_cons.mp hm with h | h
      · subst h
        rw [applyWrites,
          applyWrites_of_not_mem ws _ r c (by simpa [writeKey] using hnd.1)]
        simp
      · exact ih _ hnd.2 h

lemma correct_write_mem (ft : FlatTax) (skill : List ℚ) (p r : Nat)
    (sibs : List Nat) (hg : (p :: sibs) ∈ ft.parentAndSiblings)
    (hr : r ∈ sibs) :
    (r, r, skill.getD p 0) ∈ MWrites ft skill := by
  refine List.mem_append_left _ ?_
  rw [correctWrites, List.mem_flatMap]
  exact ⟨p :: sibs, hg, List.mem_map.mpr ⟨r, hr, rfl⟩⟩

lemma incorrect_write_mem (ft : FlatTax) (skill : List ℚ) (p r c : Nat)
    (sibs : List Nat) (hg : (p :: sibs) ∈ ft.parentAndSiblings)
    (hr : r ∈ sibs) (hc : c ∈ sibs) (hne : c ≠ r) :
    (r, c, (1 - skill.getD p 0) * ft.nodePriors.getD c 0) ∈
      MWrites ft skill := by
  refine List.mem_append_right _ ?_
  rw [incorrectWrites, List.mem_flatMap]
  refine ⟨p :: sibs, hg, ?_⟩
  rw [List.mem_flatMap]
  refine ⟨r, hr, List.mem_map.mpr ⟨c, ?_, rfl⟩⟩
  rw [List.mem_filter]
  exact ⟨hc, by simpa using hne⟩

/-- C2 amended: for every sibling group `p :: sibs` and every sibling `r`,
the row of M restricted to the group sums to
`skill[p] + (1 - skill[p]) * (sum of the node priors of the OTHER siblings)`;
it equals 1 only when the priors of the other siblings sum to 1.  The
hypothesis `hkeys` states that no matrix cell is written twice, which holds
for every taxonomy-derived index structure (each node has one parent, so
sibling groups are pairwise disjoint). -/
theorem C2_amended (ft : FlatTax) (skill : List ℚ) (p r : Nat)
    (sibs : List Nat) (hg : (p :: sibs) ∈ ft.parentAndSiblings)
    (hr : r ∈ sibs) (hs : sibs.Nodup)
    (hkeys : ((MWrites ft skill).map writeKey).Nodup) :
    (sibs.map fun c => build_M ft skill r c).sum =
      skill.getD p 0 +
        (1 - skill.getD p 0) *
          ((sibs.erase r).map fun c => ft.nodePriors.getD c 0).sum := by
  have hperm : sibs.Perm (r :: sibs.erase r) := List.perm_cons_erase hr
  rw [List.Perm.sum_eq (List.Perm.map _ hperm), List.map_cons, List.sum_cons]
  have hdiag : build_M ft skill r r = skill.getD p 0 :=
    applyWrites_of_mem _ _ _ _ _ hkeys (correct_write_mem ft skill p r sibs hg hr)
  rw [hdiag]
  have hoff : ((sibs.erase r).map fun c => build_M ft skill r c) =
      (sibs.erase r).map fun c =>
        (1 - skill.getD p 0) * ft.nodePriors.getD c 0 := by
    refine List.map_congr_left ?_
    intro c hcmem
    have hc : c ≠ r ∧ c ∈ sibs := (List.Nodup.mem_erase_iff hs).mp hcmem
    exact applyWrites_of_mem _ _ _ _ _ hkeys
      (incorrect_write_mem ft skill p r c sibs hg hr hc.2 hc.1)
  rw [hoff, ← List.sum_map_mul_left]

/-- C2 amended witness: row A = 1 of the concrete two-leaf group sums to
9/10 + (1 - 9/10) * (1/2). -/
theorem C2_amended_witness :
    ([0, 1, 2] ∈ ft3.parentAndSiblings ∧ 1 ∈ [1, 2] ∧
      ([1, 2] : List Nat).Nodup) ∧
    (([1, 2].map fun c => build_M ft3 [9/10] 1 c).sum =
      (9/10 : ℚ) +
        (1 - 9/10) * ((([1, 2] : List Nat).erase 1).map fun c =>
          ft3.nodePriors.getD c 0).sum) :=
  ⟨⟨by decide, by decide, by decide⟩,
    C2_amended ft3 [9/10] 0 1 [1, 2] (by decide) (by decide) (by decide)
      (by decide)⟩

lemma getD_range_map (n z : Nat) (f : Nat → ℚ) (hz : z < n) :
    ((List.range n).map f).getD z 0 = f z := by
  rw [List.getD_eq_getElem _ _ (by simpa using hz), List.getElem_map,
    List.getElem_range]

lemma range_sum_ite (n z : Nat) (hz : z < n) (aq bq : ℚ) (g : Nat → ℚ) :
    ((List.range n).map fun i => (if i = z then aq else bq) * g i).sum =
      aq * g z + bq * (((List.range n).map g).sum - g z) := by
  induction n with
  | zero => omega
  | succ n ih =>
      rw [List.range_succ, List.map_append, List.map_append, List.sum_append,
        List.sum_append]
      rcases Nat.lt_or_ge z n with hzn | hzn
      · rw [ih hzn]
        have hne : n ≠ z := by omega
        simp only [List.map_cons, List.map_nil, List.sum_cons, List.sum_nil,
          if_neg hne]
        ring
      · have hz' : z = n := by omega
        subst hz'
        have hcongr : ((List.range z).map fun i =>
            (if i = z then aq else bq) * g i) =
            (List.range z).map fun i => bq * g i := by
          refine List.map_congr_left ?_
          intro i hi
          rw [if_neg (by simpa using Nat.ne_of_lt (List.mem_range.mp hi))]
        rw [hcongr, List.sum_map_mul_left]
        simp only [List.map_cons, List.map_nil, List.sum_cons, List.sum_nil,
          List.map_id, eq_self_iff_true, if_true]
        ring

lemma sum_range_getD (l : List ℚ) :
    ((List.range l.length).map fun i => l.getD i 0).sum = l.sum := by
  induction l with
  | nil => rfl
  | cons x l ih =>
      rw [List.length_cons, List.range_succ_eq_map, List.map_cons,
        List.sum_cons, List.getD_cons_zero, List.map_map]
      have : ((List.range l.length).map fun i => (x :: l).getD (i + 1) 0) =
          (List.range l.length).map fun i => l.getD i 0 := by
        refine List.map_congr_left ?_
        intro i _
        exact List.getD_cons_succ
      simp only [Function.comp_def] at *
      rw [this, ih, List.sum_cons]

lemma nextRow_getD (numNodes : Nat) (priors prevRow : List ℚ)
    (prevLabel curLabel : Nat) (pt : ℚ) (z : Nat) (hz : z < numNodes)
    (hlen : prevRow.length = numNodes) :
    (nextRow numNodes priors prevRow prevLabel curLabel pt).getD z 0 =
      ((if prevLabel = z then pt
        else (1 - pt) * priors.getD curLabel 0) *
          prevRow.getD prevLabel 0) /
        (((List.range numNodes).map fun a =>
          (if a = z then pt else (1 - pt) * priors.getD curLabel 0) *
            prevRow.getD a 0).sum) := by
  unfold nextRow
  rw [getD_range_map _ _ _ hz]
  have hnum : (if z = prevLabel
        then pt * prevRow.getD prevLabel 0
        else (1 - pt) * priors.getD curLabel 0 * prevRow.getD prevLabel 0) =
      (if prevLabel = z then pt else (1 - pt) * priors.getD curLabel 0) *
        prevRow.getD prevLabel 0 := by
    by_cases h : z = prevLabel
    · subst h; rw [if_pos rfl, if_pos rfl]
    · rw [if_neg h, if_neg (fun hh => h hh.symm)]
  have hdenom : ((List.range numNodes).map fun a =>
        (if a = z then pt else (1 - pt) * priors.getD curLabel 0) *
          prevRow.getD a 0).sum =
      pt * prevRow.getD z 0 +
        ((prevRow.map fun x => (1 - pt) * priors.getD curLabel 0 * x).sum -
          (1 - pt) * priors.getD curLabel 0 * prevRow.getD z 0) := by
    rw [range_sum_ite _ _ hz, List.sum_map_mul_left]
    simp only [List.map_id, List.map_id']
    rw [← hlen, sum_range_getD]
    ring
  rw [hnum, hdenom]
  congr 1
  ring

lemma pprAux_chain (nN : Nat) (priors : List ℚ) (pairs : List (Nat × ℚ)) :
    ∀ (pl : Nat) (pr : List ℚ) (k : Nat), k + 1 < pairs.length →
    (pprAux nN priors pairs pl pr).getD (k + 1) [] =
      nextRow nN priors ((pprAux nN priors pairs pl pr).getD k [])
        (pairs.getD k (0, 0)).1 (pairs.getD (k + 1) (0, 0)).1
        (pairs.getD (k + 1) (0, 0)).2 := by
  induction pairs with
  | nil => intro pl pr k hk; simp at hk
  | cons w rest ih =>
      intro pl pr k hk
      obtain ⟨lab, pt⟩ := w
      match k with
      | 0 =>
          match rest with
          | [] => simp at hk
          | (lab2, pt2) :: r2 => simp [pprAux]
      | Nat.succ j =>
          have hj : j + 1 < rest.length := by
            simpa using Nat.lt_of_succ_lt_succ hk
          have := ih lab (nextRow nN priors pr pl lab pt) j hj
          simpa [pprAux, List.getD_cons_succ] using this

/-- C3 amended: in `predict_true_labels`, for every worker position t >= 1
and hypothetical node z, the prior-response chain value is built from the
per-node probability that equals the worker trust `pt` when z equals the
previous worker label and equals `(1 - pt)` times the class prior of the
CURRENT WORKER OWN REPORTED LABEL otherwise (not the prior of z), chained
via the numerator/denominator recursion over the previous chain row.
Concretely: (1) row 1 is exactly that per-node probability; (2) each row
t + 1 with t >= 1 is produced from row t by the `nextRow` recursion step of
the source; (3) the recursion step equals the per-node probability at the
previous label weighted by the previous chain value at the previous label,
normalized by the sum over all hypothetical nodes of the per-node
probability weighted by the previous chain row. -/
theorem C3_amended (nN : Nat) (priors : List ℚ) (labels : List Nat)
    (trusts : List ℚ) (prevRow : List ℚ) (prevLabel curLabel : Nat)
    (pt : ℚ) (t z : Nat)
    (hWt : labels.length = trusts.length)
    (ht : 1 ≤ t) (ht2 : t + 1 < labels.length)
    (hz : z < nN) (hlen : prevRow.length = nN) :
    (((probPriorResponses nN priors labels trusts).getD 1 []).getD z 0 =
      if z = labels.getD 0 0 then trusts.getD 1 0
      else (1 - trusts.getD 1 0) * priors.getD (labels.getD 1 0) 0) ∧
    ((probPriorResponses nN priors labels trusts).getD (t + 1) [] =
      nextRow nN priors
        ((probPriorResponses nN priors labels trusts).getD t [])
        (labels.getD t 0) (labels.getD (t + 1) 0) (trusts.getD (t + 1) 0)) ∧
    ((nextRow nN priors prevRow prevLabel curLabel pt).getD z 0 =
      ((if prevLabel = z then pt
        else (1 - pt) * priors.getD curLabel 0) * prevRow.getD prevLabel 0) /
        (((List.range nN).map fun a =>
          (if a = z then pt else (1 - pt) * priors.getD curLabel 0) *
            prevRow.getD a 0).sum)) := by
  have h3 : 3 ≤ labels.length := by omega
  obtain ⟨l0, l1, l2, ls, rfl⟩ :
      ∃ l0 l1 l2 ls, labels = l0 :: l1 :: l2 :: ls := by
    match labels, h3 with
    | l0 :: l1 :: l2 :: ls, _ => exact ⟨l0, l1, l2, ls, rfl⟩
    | [], h => norm_num at h
    | [l0], h => norm_num at h
    | [l0, l1], h => norm_num at h
  have h3t : 3 ≤ trusts.length := by omega
  obtain ⟨p0, p1, p2, ps, rfl⟩ :
      ∃ p0 p1 p2 ps, trusts = p0 :: p1 :: p2 :: ps := by
    match trusts, h3t with
    | p0 :: p1 :: p2 :: ps, _ => exact ⟨p0, p1, p2, ps, rfl⟩
    | [], h => norm_num at h
    | [p0], h => norm_num at h
    | [p0, p1], h => norm_num at h
  have hrows : probPriorResponses nN priors (l0 :: l1 :: l2 :: ls)
      (p0 :: p1 :: p2 :: ps) =
      List.replicate nN (1 : ℚ) :: firstRow nN priors l0 l1 p1 ::
        pprAux nN priors ((l2 :: ls).zip (p2 :: ps)) l1
          (firstRow nN priors l0 l1 p1) := rfl
  refine ⟨?_, ?_, nextRow_getD nN priors prevRow prevLabel curLabel pt z hz hlen⟩
  · rw [hrows]
    simp only [List.getD_cons_succ, List.getD_cons_zero]
    rw [firstRow, getD_range_map _ _ _ hz]
  · rw [hrows]
    rcases Nat.lt_or_ge t 2 with h2 | h2
    · have ht1 : t = 1 := by omega
      subst ht1
      simp [pprAux, List.zip_cons_cons, List.getD_cons_succ,
        List.getD_cons_zero]
    · obtain ⟨j, rfl⟩ : ∃ j, t = j + 2 := ⟨t - 2, by omega⟩
      have hj : j + 1 < ((l2 :: ls).zip (p2 :: ps)).length := by
        rw [List.length_zip]
        simp only [List.length_cons] at ht2 hWt ⊢
        omega
      have hchain := pprAux_chain nN priors ((l2 :: ls).zip (p2 :: ps)) l1
        (firstRow nN priors l0 l1 p1) j hj
      have hgk : ∀ m, m < ((l2 :: ls).zip (p2 :: ps)).length →
          ((l2 :: ls).zip (p2 :: ps)).getD m (0, 0) =
            ((l2 :: ls).getD m 0, (p2 :: ps).getD m 0) := by
        intro m hm
        rw [List.getD_eq_getElem _ _ hm, List.getElem_zip,
          List.getD_eq_getElem _ _ (by
            rw [List.length_zip] at hm; omega),
          List.getD_eq_getElem _ _ (by
            rw [List.length_zip] at hm; omega)]
      rw [hgk j (by omega), hgk (j + 1) hj] at hchain
      simp only [show j + 2 + 1 = (j + 1) + 1 + 1 from rfl,
        List.getD_cons_succ, show j + 2 = (j + 1) + 1 from rfl,
        List.getD_cons_zero]
      exact hchain

/-- C3 amended witness: three workers with labels 1, 2, 0 and trusts
4/5, 4/5, 3/5 over priors [1, 2/3, 1/3]; position t = 1, node z = 0,
and a concrete recursion step input. -/
theorem C3_amended_witness :
    (([1, 2, 0] : List Nat).length = ([4/5, 4/5, 3/5] : List ℚ).length ∧
      1 ≤ 1 ∧ 1 + 1 < ([1, 2, 0] : List Nat).length ∧ 0 < 3 ∧
      ([1, 1, 1] : List ℚ).length = 3) ∧
    ((((probPriorResponses 3 [1, 2/3, 1/3] [1, 2, 0] [4/5, 4/5, 3/5]).getD
        1 []).getD 0 0 =
      if (0 : Nat) = ([1, 2, 0] : List Nat).getD 0 0
      then ([4/5, 4/5, 3/5] : List ℚ).getD 1 0
      else (1 - ([4/5, 4/5, 3/5] : List ℚ).getD 1 0) *
        ([1, (2 : ℚ)/3, 1/3]).getD (([1, 2, 0] : List Nat).getD 1 0) 0) ∧
    ((probPriorResponses 3 [1, 2/3, 1/3] [1, 2, 0] [4/5, 4/5, 3/5]).getD
        (1 + 1) [] =
      nextRow 3 [1, 2/3, 1/3]
        ((probPriorResponses 3 [1, 2/3, 1/3] [1, 2, 0] [4/5, 4/5, 3/5]).getD
          1 [])
        (([1, 2, 0] : List Nat).getD 1 0) (([1, 2, 0] : List Nat).getD (1 + 1) 0)
        (([4/5, (4 : ℚ)/5, 3/5]).getD (1 + 1) 0)) ∧
    ((nextRow 3 [1, 2/3, 1/3] [1, 1, 1] 1 2 (4/5)).getD 0 0 =
      ((if (1 : Nat) = 0 then (4 : ℚ)/5
        else (1 - 4/5) * ([1, (2 : ℚ)/3, 1/3]).getD 2 0) *
          ([1, (1 : ℚ), 1]).getD 1 0) /
        (((List.range 3).map fun a =>
          (if a = 0 then (4 : ℚ)/5
           else (1 - 4/5) * ([1, (2 : ℚ)/3, 1/3]).getD 2 0) *
            ([1, (1 : ℚ), 1]).getD a 0).sum))) :=
  ⟨⟨rfl, by decide, by decide, by decide, rfl⟩,
    C3_amended 3 [1, 2/3, 1/3] [1, 2, 0] [4/5, 4/5, 3/5] [1, 1, 1] 1 2
      (4/5) 1 0 rfl (by decide) (by decide) (by decide) rfl⟩

lemma dictInsert_fresh {α : Type} [DecidableEq α] (d : List (α × Nat))
    (k : α) (v : Nat) (h : ∀ q ∈ d, q.1 ≠ k) :
    dictInsert d k v = d ++ [(k, v)] := by
  unfold dictInsert
  rw [if_neg]
  simp only [List.any_eq_true, not_exists, not_and]
  intro q hq
  simpa using h q hq

lemma foldl_dictInsert_fresh {α : Type} [DecidableEq α] (f : Nat → Nat) :
    ∀ (l : List (Nat × α)) (d : List (α × Nat)),
    (l.map (·.2)).Nodup → (∀ p ∈ l, ∀ q ∈ d, q.1 ≠ p.2) →
    l.foldl (fun d p => dictInsert d p.2 (f p.1)) d =
      d ++ l.map fun p => (p.2, f p.1) := by
  intro l
  induction l with
  | nil => intro d _ _; simp
  | cons p l ih =>
      intro d hnd hfresh
      simp only [List.map_cons, List.nodup_cons] at hnd
      rw [List.foldl_cons,
        dictInsert_fresh d p.2 (f p.1) (fun q hq => hfresh p (by simp) q hq)]
      rw [ih (d ++ [(p.2, f p.1)]) hnd.2 ?_]
      · simp
      · intro r hr q hq
        rcases List.mem_append.mp hq with hq | hq
        · exact hfresh r (by simp [hr]) q hq
        · have : q = (p.2, f p.1) := by simpa using hq
          subst this
          intro hqr
          apply hnd.1
          rw [show p.2 = r.2 from hqr]
          exact List.mem_map.mpr ⟨r, hr, rfl⟩

lemma buildKeyToId_eq {α : Type} [DecidableEq α] (innerKeys leafKeys : List α)
    (hnd : (innerKeys ++ leafKeys).Nodup) :
    buildKeyToId innerKeys leafKeys =
      (innerKeys.enum.map fun p => (p.2, p.1)) ++
        (leafKeys.enum.map fun p => (p.2, p.1 + innerKeys.length)) := by
  rw [List.nodup_append] at hnd
  unfold buildKeyToId
  rw [foldl_dictInsert_fresh (fun i => i) innerKeys.enum []
      (by rw [List.enum_map_snd]; exact hnd.1) (by simp),
    List.nil_append,
    foldl_dictInsert_fresh (fun i => i + innerKeys.length) leafKeys.enum _
      (by rw [List.enum_map_snd]; exact hnd.2.1) ?_]
  intro p hp q hq
  obtain ⟨r, hr, rfl⟩ := List.mem_map.mp hq
  intro hcontra
  have hrk : r.2 ∈ innerKeys := by
    have := List.enum_map_snd innerKeys
    exact this ▸ List.mem_map.mpr ⟨r, hr, rfl⟩
  have hpk : p.2 ∈ leafKeys := by
    have := List.enum_map_snd leafKeys
    exact this ▸ List.mem_map.mpr ⟨p, hp, rfl⟩
  exact hnd.2.2 (hcontra ▸ hrk) hpk

lemma assoc_keys {α : Type} [DecidableEq α] (innerKeys leafKeys : List α)
    (hnd : (innerKeys ++ leafKeys).Nodup) :
    (buildKeyToId innerKeys leafKeys).map (·.1) = innerKeys ++ leafKeys := by
  rw [buildKeyToId_eq innerKeys leafKeys hnd, List.map_append,
    List.map_map, List.map_map]
  have h1 : ((fun p : α × Nat => p.1) ∘ fun p : Nat × α => (p.2, p.1)) =
      Prod.snd := rfl
  have h2 : ((fun p : α × Nat => p.1) ∘
      fun p : Nat × α => (p.2, p.1 + innerKeys.length)) = Prod.snd := rfl
  rw [h1, h2, List.enum_map_snd, List.enum_map_snd]

lemma find?_assoc_of_mem {α : Type} [DecidableEq α] :
    ∀ (d : List (α × Nat)) (k : α) (v : Nat),
    (d.map (·.1)).Nodup → (k, v) ∈ d →
    d.find? (fun p => p.1 = k) = some (k, v) := by
  intro d
  induction d with
  | nil => intro k v _ hm; exact absurd hm (List.not_mem_nil _)
  | cons q d ih =>
      intro k v hnd hm
      simp only [List.map_cons, List.nodup_cons] at hnd
      rcases List.mem_cons.mp hm with h | h
      · subst h
        exact List.find?_cons_of_pos _ (by simp)
      · have hqk : q.1 ≠ k := by
          intro hq
          exact hnd.1 (hq ▸ List.mem_map.mpr ⟨(k, v), h, rfl⟩)
        rw [List.find?_cons_of_neg _ (by simpa using hqk)]
        exact ih k v hnd.2 h

/-- C7: for every finalized taxonomy (modelled by its inner-node and
leaf-node enumerations, whose keys are pairwise distinct), the node-key to
integer-id dict built by `initialize_data_structures` maps the inner keys,
in enumeration order, to exactly the ids `0 .. numInner-1`, the leaf keys to
exactly `numInner .. numNodes-1`, and no other key to anything: the mapping
is a bijection between the node keys and `{0, ..., numNodes-1}`. -/
theorem C7_id_assignment {α : Type} [DecidableEq α]
    (innerKeys leafKeys : List α) (hnd : (innerKeys ++ leafKeys).Nodup) :
    (innerKeys.map (dictLookup (buildKeyToId innerKeys leafKeys)) =
      (List.range innerKeys.length).map some) ∧
    (leafKeys.map (dictLookup (buildKeyToId innerKeys leafKeys)) =
      (List.range' innerKeys.length leafKeys.length).map some) ∧
    (∀ k, k ∉ innerKeys ++ leafKeys →
      dictLookup (buildKeyToId innerKeys leafKeys) k = none) := by
  have hkeys := assoc_keys innerKeys leafKeys hnd
  have hkeysnd : ((buildKeyToId innerKeys leafKeys).map (·.1)).Nodup := by
    rw [hkeys]; exact hnd
  have hassoc := buildKeyToId_eq innerKeys leafKeys hnd
  refine ⟨?_, ?_, ?_⟩
  · refine List.ext_getElem (by simp) ?_
    intro j h1 h2
    rw [List.getElem_map, List.getElem_map, List.getElem_range]
    have hjlen : j < innerKeys.length := by simpa using h1
    have hmem : (innerKeys[j], j) ∈ buildKeyToId innerKeys leafKeys := by
      rw [hassoc]
      refine List.mem_append_left _ ?_
      have hje : j < innerKeys.enum.length := by
        rw [List.enum_length]; exact hjlen
      have : innerKeys.enum[j] = (j, innerKeys[j]) :=
        List.getElem_enum innerKeys j hje
      have hm : (innerKeys.enum[j].2, innerKeys.enum[j].1) ∈
          innerKeys.enum.map fun p => (p.2, p.1) :=
        List.mem_map.mpr ⟨innerKeys.enum[j], List.getElem_mem hje, rfl⟩
      rwa [this] at hm
    rw [dictLookup, find?_assoc_of_mem _ _ _ hkeysnd hmem]
    rfl
  · refine List.ext_getElem (by simp [List.length_range']) ?_
    intro j h1 h2
    rw [List.getElem_map, List.getElem_map, List.getElem_range']
    have hjlen : j < leafKeys.length := by simpa using h1
    have hmem : (leafKeys[j], j + innerKeys.length) ∈
        buildKeyToId innerKeys leafKeys := by
      rw [hassoc]
      refine List.mem_append_right _ ?_
      have hje : j < leafKeys.enum.length := by
        rw [List.enum_length]; exact hjlen
      have : leafKeys.enum[j] = (j, leafKeys[j]) :=
        List.getElem_enum leafKeys j hje
      have hm : (leafKeys.enum[j].2, leafKeys.enum[j].1 + innerKeys.length) ∈
          leafKeys.enum.map fun p => (p.2, p.1 + innerKeys.length) :=
        List.mem_map.mpr ⟨leafKeys.enum[j], List.getElem_mem hje, rfl⟩
      rwa [this] at hm
    rw [dictLookup, find?_assoc_of_mem _ _ _ hkeysnd hmem]
    simp [Nat.add_comm]
  · intro k hk
    rw [dictLookup, List.find?_eq_none.mpr, Option.map_none']
    intro q hq
    simp only [decide_eq_true_eq]
    intro hqk
    exact hk (hkeys ▸ hqk ▸ List.mem_map.mpr ⟨q, hq, rfl⟩)

/-- C7 witness: inner keys [10], leaf keys [20, 30] get ids 0; 1, 2. -/
theorem C7_id_assignment_witness :
    (([10] ++ [20, 30] : List Nat).Nodup) ∧
    (([10] : List Nat).map (dictLookup (buildKeyToId [10] [20, 30])) =
      (List.range 1).map some) ∧
    (([20, 30] : List Nat).map (dictLookup (buildKeyToId [10] [20, 30])) =
      (List.range' 1 2).map some) ∧
    (∀ k, k ∉ ([10] ++ [20, 30] : List Nat) →
      dictLookup (buildKeyToId [10] [20, 30]) k = none) :=
  ⟨by decide,
    (C7_id_assignment [10] [20, 30] (by decide)).1,
    (C7_id_assignment [10] [20, 30] (by decide)).2.1,
    (C7_id_assignment [10] [20, 30] (by decide)).2.2⟩

lemma bump_length (v : List ℚ) (i : Nat) : (bump v i).length = v.length :=
  List.length_set v i _

lemma foldl_bump_length : ∀ (l : List Nat) (v : List ℚ),
    (l.foldl bump v).length = v.length := by
  intro l
  induction l with
  | nil => intro v; rfl
  | cons x l ih =>
      intro v
      rw [List.foldl_cons, ih, bump_length]

lemma bump_getD (v : List ℚ) (i n : Nat) (hn : n < v.length) :
    (bump v i).getD n 0 = v.getD n 0 + if i = n then 1 else 0 := by
  unfold bump
  rw [List.getD_eq_getElem?_getD, List.getElem?_set]
  by_cases h : i = n
  · subst h
    rw [if_pos rfl, if_pos (by omega), if_pos rfl]
    simp [List.getD_eq_getElem?_getD]
  · rw [if_neg h, if_neg h, add_zero, List.getD_eq_getElem?_getD]

lemma foldl_bump_getD : ∀ (l : List Nat) (v : List ℚ) (n : Nat),
    n < v.length →
    (l.foldl bump v).getD n 0 = v.getD n 0 + (l.count n : ℚ) := by
  intro l
  induction l with
  | nil => intro v n _; simp
  | cons x l ih =>
      intro v n hn
      rw [List.foldl_cons, ih _ _ (by rw [bump_length]; exact hn),
        bump_getD v x n hn, List.count_cons]
      by_cases hx : x = n
      · simp [hx]
        ring
      · simp [hx]

lemma matchedParents_sublist : ∀ (yp zp : List Nat),
    (matchedParents yp zp).Sublist yp.dropLast := by
  intro yp
  induction yp with
  | nil => intro zp; exact List.nil_sublist _
  | cons a yp1 ih =>
      intro zp
      cases yp1 with
      | nil =>
          cases zp with
          | nil => exact List.nil_sublist _
          | cons c zp1 =>
              cases zp1 with
              | nil => exact List.nil_sublist _
              | cons d zr => exact List.nil_sublist _
      | cons b yr =>
          cases zp with
          | nil => exact List.nil_sublist _
          | cons c zp1 =>
              cases zp1 with
              | nil => exact List.nil_sublist _
              | cons d zr =>
                  show ((if b = d then [a] else []) ++
                    matchedParents (b :: yr) (d :: zr)).Sublist
                    (a :: (b :: yr).dropLast)
                  by_cases hbd : b = d
                  · rw [if_pos hbd]
                    exact List.Sublist.append (List.Sublist.refl [a]) (ih _)
                  · rw [if_neg hbd, List.nil_append]
                    exact List.Sublist.cons a (ih _)

lemma mem_matchedParents : ∀ (yp zp : List Nat) (n : Nat),
    n ∈ matchedParents yp zp ↔
      ∃ k, k + 1 < yp.length ∧ k + 1 < zp.length ∧ yp.getD k 0 = n ∧
        yp.getD (k + 1) 0 = zp.getD (k + 1) 0 := by
  intro yp
  induction yp with
  | nil =>
      intro zp n
      simp only [matchedParents, List.not_mem_nil, false_iff, not_exists]
      intro k
      simp
  | cons a yp1 ih =>
      intro zp n
      cases yp1 with
      | nil =>
          constructor
          · intro h
            cases zp with
            | nil => simp [matchedParents] at h
            | cons c zp1 =>
                cases zp1 with
                | nil => simp [matchedParents] at h
                | cons d zr => simp [matchedParents] at h
          · rintro ⟨k, hk1, _, _, _⟩
            simp only [List.length_cons, List.length_nil] at hk1
            omega
      | cons b yr =>
          cases zp with
          | nil =>
              constructor
              · intro h; simp [matchedParents] at h
              · rintro ⟨k, _, hk2, _, _⟩
                simp only [List.length_nil] at hk2
                omega
          | cons c zp1 =>
              cases zp1 with
              | nil =>
                  constructor
                  · intro h; simp [matchedParents] at h
                  · rintro ⟨k, _, hk2, _, _⟩
                    simp only [List.length_cons, List.length_nil] at hk2
                    omega
              | cons d zr =>
                  show n ∈ (if b = d then [a] else []) ++
                      matchedParents (b :: yr) (d :: zr) ↔ _
                  rw [List.mem_append]
                  constructor
                  · intro h
                    rcases h with h | h
                    · by_cases hbd : b = d
                      · rw [if_pos hbd] at h
                        have hna : n = a := by simpa using h
                        refine ⟨0, by simp, by simp, by simp [hna.symm], ?_⟩
                        simpa using hbd
                      · rw [if_neg hbd] at h
                        simp at h
                    · obtain ⟨j, hj1, hj2, hj3, hj4⟩ := (ih (d :: zr) n).mp h
                      refine ⟨j + 1, ?_, ?_, ?_, ?_⟩
                      · simp only [List.length_cons] at hj1 ⊢; omega
                      · simp only [List.length_cons] at hj2 ⊢; omega
                      · simpa [List.getD_cons_succ] using hj3
                      · simpa [List.getD_cons_succ] using hj4
                  · rintro ⟨k, hk1, hk2, hk3, hk4⟩
                    rcases k with _ | j
                    · have hbd : b = d := by simpa using hk4
                      refine Or.inl ?_
                      rw [if_pos hbd]
                      have : a = n := by simpa using hk3
                      simp [this]
                    · refine Or.inr ?_
                      refine (ih (d :: zr) n).mpr ⟨j, ?_, ?_, ?_, ?_⟩
                      · simp only [List.length_cons] at hk1 ⊢; omega
                      · simp only [List.length_cons] at hk2 ⊢; omega
                      · simpa [List.getD_cons_succ] using hk3
                      · simpa [List.getD_cons_succ] using hk4

lemma agrees_iff_mem (paths : List (List Nat)) (im : WImage) (n : Nat)
    (hpre : PrefixAgree (paths.getD im.yId []) (paths.getD im.zId [])) :
    agreesThroughChild paths im n = true ↔
      n ∈ matchedParents (paths.getD im.yId []) (paths.getD im.zId []) := by
  set yp := paths.getD im.yId [] with hyp
  set zp := paths.getD im.zId [] with hzp
  rw [mem_matchedParents]
  unfold agreesThroughChild
  rw [List.any_eq_true]
  simp only [List.mem_range, decide_eq_true_eq, ← hyp, ← hzp]
  constructor
  · rintro ⟨ci, hci, h1, h2, h3, h4⟩
    obtain ⟨k, rfl⟩ : ∃ k, ci = k + 1 := ⟨ci - 1, by omega⟩
    refine ⟨k, hci, h2, by simpa using h3, ?_⟩
    have hy : k + 1 < yp.length := hci
    have hz' : k + 1 < zp.length := h2
    have hky : k + 1 < (yp.take (k + 1 + 1)).length := by
      rw [List.length_take]
      omega
    have htk := List.getElem_of_eq h4 hky
    rw [List.getElem_take, List.getElem_take] at htk
    rw [List.getD_eq_getElem _ _ hy, List.getD_eq_getElem _ _ hz']
    exact htk
  · rintro ⟨k, hk1, hk2, hk3, hk4⟩
    refine ⟨k + 1, hk1, by omega, hk2, by simpa using hk3, ?_⟩
    exact hpre (k + 1) hk1 hk2 hk4

lemma count_imgNumContrib (paths : List (List Nat)) (im : WImage) (n : Nat)
    (hpre : PrefixAgree (paths.getD im.yId []) (paths.getD im.zId []))
    (hnd : (paths.getD im.yId []).Nodup) :
    ((imgNumContrib paths im).count n : ℚ) =
      if (decide (2 ≤ im.numAnnos) && agreesThroughChild paths im n) = true
      then 1 else 0 := by
  unfold imgNumContrib
  by_cases hskip : im.numAnnos ≤ 1
  · rw [if_pos hskip]
    have : decide (2 ≤ im.numAnnos) = false := by
      simp only [decide_eq_false_iff_not]
      omega
    rw [this]
    simp
  · rw [if_neg hskip]
    have h2 : decide (2 ≤ im.numAnnos) = true := by
      simp only [decide_eq_true_eq]
      omega
    rw [h2, Bool.true_and]
    have hndmp : (matchedParents (paths.getD im.yId [])
        (paths.getD im.zId [])).Nodup :=
      ((matchedParents_sublist _ _).trans (List.dropLast_sublist _)).nodup hnd
    by_cases hm : n ∈ matchedParents (paths.getD im.yId [])
        (paths.getD im.zId [])
    · rw [List.count_eq_one_of_mem hndmp hm,
        (agrees_iff_mem paths im n hpre).mpr hm]
      simp
    · rw [List.count_eq_zero_of_not_mem hm]
      have : agreesThroughChild paths im n = false := by
        rw [← Bool.not_eq_true]
        intro hc
        exact hm ((agrees_iff_mem paths im n hpre).mp hc)
      rw [this]
      simp

lemma count_imgDenomContrib (paths : List (List Nat)) (im : WImage) (n : Nat)
    (hnd : (paths.getD im.yId []).Nodup) :
    ((imgDenomContrib paths im).count n : ℚ) =
      if (decide (2 ≤ im.numAnnos) &&
          decide (n ∈ (paths.getD im.yId []).dropLast)) = true
      then 1 else 0 := by
  unfold imgDenomContrib
  by_cases hskip : im.numAnnos ≤ 1
  · rw [if_pos hskip]
    have : decide (2 ≤ im.numAnnos) = false := by
      simp only [decide_eq_false_iff_not]
      omega
    rw [this]
    simp
  · rw [if_neg hskip]
    have h2 : decide (2 ≤ im.numAnnos) = true := by
      simp only [decide_eq_true_eq]
      omega
    rw [h2, Bool.true_and]
    have hnddl : (paths.getD im.yId []).dropLast.Nodup :=
      (List.dropLast_sublist _).nodup hnd
    by_cases hm : n ∈ (paths.getD im.yId []).dropLast
    · rw [List.count_eq_one_of_mem hnddl hm, decide_eq_true hm]
      simp
    · rw [List.count_eq_zero_of_not_mem hm, decide_eq_false hm]
      simp

lemma sum_ite_count (p : WImage → Bool) : ∀ (imgs : List WImage),
    ((imgs.map fun im => if p im = true then (1 : ℚ) else 0).sum) =
      ((imgs.filter p).length : ℚ) := by
  intro imgs
  induction imgs with
  | nil => simp
  | cons im imgs ih =>
      rw [List.map_cons, List.sum_cons, ih]
      by_cases hp : p im = true
      · rw [if_pos hp, List.filter_cons_of_pos hp, List.length_cons]
        push_cast
        ring
      · rw [if_neg hp, List.filter_cons_of_neg (by simpa using hp), zero_add]

lemma skillCounts_getD (paths : List (List Nat)) (nInner : Nat)
    (imgs : List WImage) (n : Nat) (hn : n < nInner) :
    (skillCounts paths nInner imgs).1.getD n 0 =
      ((imgs.map fun im => ((imgNumContrib paths im).count n : ℚ)).sum) ∧
    (skillCounts paths nInner imgs).2.getD n 0 =
      ((imgs.map fun im => ((imgDenomContrib paths im).count n : ℚ)).sum) := by
  have main : ∀ (l : List WImage) (acc : List ℚ × List ℚ),
      n < acc.1.length → n < acc.2.length →
      (l.foldl (fun acc im =>
        if im.numAnnos ≤ 1 then acc
        else
          ((matchedParents (paths.getD im.yId [])
              (paths.getD im.zId [])).foldl bump acc.1,
           (paths.getD im.yId []).dropLast.foldl bump acc.2)) acc).1.getD n 0 =
        acc.1.getD n 0 +
          ((l.map fun im => ((imgNumContrib paths im).count n : ℚ)).sum) ∧
      (l.foldl (fun acc im =>
        if im.numAnnos ≤ 1 then acc
        else
          ((matchedParents (paths.getD im.yId [])
              (paths.getD im.zId [])).foldl bump acc.1,
           (paths.getD im.yId []).dropLast.foldl bump acc.2)) acc).2.getD n 0 =
        acc.2.getD n 0 +
          ((l.map fun im => ((imgDenomContrib paths im).count n : ℚ)).sum) := by
    intro l
    induction l with
    | nil => intro acc _ _; simp
    | cons im l ih =>
        intro acc h1 h2
        rw [List.foldl_cons]
        by_cases hskip : im.numAnnos ≤ 1
        · rw [if_pos hskip]
          obtain ⟨ih1, ih2⟩ := ih acc h1 h2
          constructor
          · rw [ih1, List.map_cons, List.sum_cons]
            unfold imgNumContrib
            rw [if_pos hskip]
            simp only [List.count_nil, Nat.cast_zero, zero_add]
          · rw [ih2, List.map_cons, List.sum_cons]
            unfold imgDenomContrib
            rw [if_pos hskip]
            simp only [List.count_nil, Nat.cast_zero, zero_add]
        · rw [if_neg hskip]
          have hl1 : n < ((matchedParents (paths.getD im.yId [])
              (paths.getD im.zId [])).foldl bump acc.1).length := by
            rw [foldl_bump_length]; exact h1
          have hl2 : n < ((paths.getD im.yId []).dropLast.foldl bump
              acc.2).length := by
            rw [foldl_bump_length]; exact h2
          obtain ⟨ih1, ih2⟩ := ih
            ((matchedParents (paths.getD im.yId [])
                (paths.getD im.zId [])).foldl bump acc.1,
             (paths.getD im.yId []).dropLast.foldl bump acc.2) hl1 hl2
          constructor
          · rw [ih1, foldl_bump_getD _ _ _ h1, List.map_cons, List.sum_cons]
            unfold imgNumContrib
            rw [if_neg hskip]
            ring
          · rw [ih2, foldl_bump_getD _ _ _ h2, List.map_cons, List.sum_cons]
            unfold imgDenomContrib
            rw [if_neg hskip]
            ring
  have h := main imgs (List.replicate nInner 0, List.replicate nInner 0)
    (by simpa using hn) (by simpa using hn)
  unfold skillCounts
  refine ⟨?_, ?_⟩
  · rw [h.1]
    simp [List.getD_eq_getElem?_getD, List.getElem?_replicate, hn]
  · rw [h.2]
    simp [List.getD_eq_getElem?_getD, List.getElem?_replicate, hn]

/-- C4 amended: in `estimate_parameters`, for each inner node `n`,
`count_total[n]` is incremented once for every item WITH AT LEAST TWO
ANNOTATIONS whose current best-label root path passes through `n` (items
with a single annotation are skipped by the source), and `count_correct[n]`
is incremented exactly when, additionally, the worker reported path agrees
with the best-label path up to and including the child of `n`.  The
hypotheses state the tree property of root paths (agreement at a position
extends to the whole prefix) and their freedom from duplicates, both true of
root paths in a taxonomy. -/
theorem C4_amended (paths : List (List Nat)) (nInner : Nat)
    (imgs : List WImage) (n : Nat) (hn : n < nInner)
    (htree : ∀ im ∈ imgs,
      PrefixAgree (paths.getD im.yId []) (paths.getD im.zId []))
    (hnodup : ∀ im ∈ imgs, (paths.getD im.yId []).Nodup) :
    (skillCounts paths nInner imgs).2.getD n 0 =
      (countTotalAmended paths imgs n : ℚ) ∧
    (skillCounts paths nInner imgs).1.getD n 0 =
      (countCorrectAmended paths imgs n : ℚ) := by
  obtain ⟨h1, h2⟩ := skillCounts_getD paths nInner imgs n hn
  constructor
  · rw [h2]
    have hcong : (imgs.map fun im =>
        ((imgDenomContrib paths im).count n : ℚ)) =
        imgs.map fun im =>
          if (decide (2 ≤ im.numAnnos) &&
              decide (n ∈ (paths.getD im.yId []).dropLast)) = true
          then (1 : ℚ) else 0 := by
      refine List.map_congr_left ?_
      intro im him
      exact count_imgDenomContrib paths im n (hnodup im him)
    rw [hcong, sum_ite_count]
    rfl
  · rw [h1]
    have hcong : (imgs.map fun im =>
        ((imgNumContrib paths im).count n : ℚ)) =
        imgs.map fun im =>
          if (decide (2 ≤ im.numAnnos) && agreesThroughChild paths im n) = true
          then (1 : ℚ) else 0 := by
      refine List.map_congr_left ?_
      intro im him
      exact count_imgNumContrib paths im n (htree im him) (hnodup im him)
    rw [hcong, sum_ite_count]
    rfl

/-- C4 amended witness: the three-node taxonomy; node n = 0; one counted
image (two annotations, best label A, worker label A) and one skipped image
(single annotation). -/
theorem C4_amended_witness :
    (0 < 1 ∧
      (∀ im ∈ [WImage.mk 2 1 1, WImage.mk 1 2 2],
        PrefixAgree (ft3.paths.getD im.yId []) (ft3.paths.getD im.zId [])) ∧
      (∀ im ∈ [WImage.mk 2 1 1, WImage.mk 1 2 2],
        (ft3.paths.getD im.yId []).Nodup)) ∧
    ((skillCounts ft3.paths 1 [WImage.mk 2 1 1, WImage.mk 1 2 2]).2.getD 0 0 =
      (countTotalAmended ft3.paths [WImage.mk 2 1 1, WImage.mk 1 2 2] 0 : ℚ) ∧
    (skillCounts ft3.paths 1 [WImage.mk 2 1 1, WImage.mk 1 2 2]).1.getD 0 0 =
      (countCorrectAmended ft3.paths [WImage.mk 2 1 1, WImage.mk 1 2 2] 0 : ℚ)) :=
  ⟨⟨by decide,
    by intro im him; unfold PrefixAgree; fin_cases him <;> decide,
    by intro im him; fin_cases him <;> decide⟩,
    C4_amended ft3.paths 1 [WImage.mk 2 1 1, WImage.mk 1 2 2] 0 (by decide)
      (by intro im him; unfold PrefixAgree; fin_cases him <;> decide)
      (by intro im him; fin_cases him <;> decide)⟩

end MulticlassSingleBinomial
